import Mathlib

/-!
Shallow embedding of the embedded-log ring buffer
(`src/src/log.c`, `src/include/log.h`) and verification of its
specification.

Modelling conventions:
* A C pointer to `struct log_ctx` is an `Option LogCtx`; `none` is `NULL`.
  Each operation returns the state of the pointed-to context after the call.
* The injected time source `uint32_t (*timestamp_fn)(void)` is an opaque
  reference, modelled as `Option Nat` (`none` = `NULL` function pointer).
  The `uint32_t` value that the call `ctx->timestamp_fn()` returns during one
  `log_event` call is passed to the model of `log_event` as the extra
  argument `ts`, and is reduced `% 2 ^ 32` where the C code stores it in a
  `uint32_t` field.
* `vsnprintf(entry->msg, (size_t)LOG_MSG_LEN, fmt, args)` renders the format
  string with its arguments and stores at most `LOG_MSG_LEN - 1` characters
  followed by a terminator.  The model passes the rendered text to
  `log_event` directly (`Option (List Char)`, `none` = `NULL` fmt) and the
  stored `msg` field holds the characters strictly before the terminator,
  i.e. the first `LOG_MSG_LEN - 1` characters of the rendered text.
* The `uint16_t` fields `head`, `count` and the `uint16_t` index argument are
  `Nat`s; arithmetic that can wrap in C carries the explicit `% 2 ^ 16`
  (for `ctx->head++`) and `% 2 ^ 32` (for the unsigned-int index computation
  in `log_get_entry`) reductions of the C evaluation.
-/

namespace EmbeddedLog

/-- `#define LOG_MSG_LEN (48U)` -/
def LOG_MSG_LEN : Nat := 48

/-- `#define LOG_ENTRIES (50U)` -/
def LOG_ENTRIES : Nat := 50

/-- `enum log_level { INFO = 0U, WARN = 1U, FAULT = 2U }` -/
inductive LogLevel where
  | INFO
  | WARN
  | FAULT
deriving DecidableEq

/-- The numeric value of a level, as stored by `entry->level = (uint16_t)level`. -/
def LogLevel.toCode : LogLevel → Nat
  | .INFO => 0
  | .WARN => 1
  | .FAULT => 2

/-- `struct log_entry { uint32_t timestamp; uint16_t level; char msg[LOG_MSG_LEN]; }`.
`msg` holds the characters stored strictly before the terminating NUL. -/
structure LogEntry where
  timestamp : Nat
  level : Nat
  msg : List Char
deriving DecidableEq

/-- The all-zero entry produced by `memset(ctx->buffer, 0, ...)` in `log_init`. -/
def zeroEntry : LogEntry := { timestamp := 0, level := 0, msg := [] }

/-- `struct log_ctx { struct log_entry buffer[LOG_ENTRIES]; uint16_t head;
uint16_t count; uint32_t (*timestamp_fn)(void); }` -/
structure LogCtx where
  buffer : List LogEntry
  head : Nat
  count : Nat
  timestamp_fn : Option Nat
deriving DecidableEq

/-- `log_init`: `NULL` check, then reset `head`, `count`, store the time
source, `memset` the buffer to zero. -/
def log_init (ctx : Option LogCtx) (timestamp_fn : Option Nat) : Option LogCtx :=
  ctx.map fun _ =>
    { buffer := List.replicate LOG_ENTRIES zeroEntry
      head := 0
      count := 0
      timestamp_fn := timestamp_fn }

/-- One append's inputs: the `level` argument, the text rendered from
`fmt`/varargs, and the `uint32_t` value the time source returns at this call. -/
structure AppendInput where
  level : LogLevel
  msg : List Char
  ts : Nat
deriving DecidableEq

/-- The entry that a successful `log_event` writes into `ctx->buffer[ctx->head]`:
`timestamp = ctx->timestamp_fn()` (a `uint32_t`), `level = (uint16_t)level`,
`msg` = the rendered text truncated by `vsnprintf` to `LOG_MSG_LEN - 1`
characters plus a terminator. -/
def mkEntry (p : AppendInput) : LogEntry :=
  { timestamp := p.ts % 2 ^ 32
    level := p.level.toCode
    msg := p.msg.take (LOG_MSG_LEN - 1) }

/-- Body of `log_event` on a non-`NULL` context: guard on
`ctx->timestamp_fn == NULL || fmt == NULL`, write the entry at `ctx->head`,
advance `head` (a `uint16_t`, wrapped to 0 at `LOG_ENTRIES`), and saturate
`count` at `LOG_ENTRIES`. -/
def log_event1 (c : LogCtx) (level : LogLevel) (fmt : Option (List Char)) (ts : Nat) : LogCtx :=
  if c.timestamp_fn = none ∨ fmt = none then c
  else
    let h := (c.head + 1) % 2 ^ 16
    { buffer := c.buffer.set c.head (mkEntry { level := level, msg := fmt.getD [], ts := ts })
      head := if LOG_ENTRIES ≤ h then 0 else h
      count := if c.count < LOG_ENTRIES then c.count + 1 else c.count
      timestamp_fn := c.timestamp_fn }

/-- `log_event`: `NULL`-context check, then `log_event1`. -/
def log_event (ctx : Option LogCtx) (level : LogLevel) (fmt : Option (List Char)) (ts : Nat) :
    Option LogCtx :=
  ctx.map fun c => log_event1 c level fmt ts

/-- `log_get_count`: 0 for a `NULL` context, else `ctx->count`. -/
def log_get_count (ctx : Option LogCtx) : Nat :=
  match ctx with
  | none => 0
  | some c => c.count

/-- The physical index `(uint16_t)((ctx->head + LOG_ENTRIES - ctx->count + idx)
% LOG_ENTRIES)` computed by `log_get_entry`.  The C expression is evaluated in
`unsigned int` (32-bit) arithmetic, so the subtraction is the wrapping
`(a + (2 ^ 32 - b % 2 ^ 32)) % 2 ^ 32`. -/
def physIdx (c : LogCtx) (idx : Nat) : Nat :=
  ((c.head + LOG_ENTRIES + idx + (2 ^ 32 - c.count % 2 ^ 32)) % 2 ^ 32) % LOG_ENTRIES

/-- `log_get_entry`: `NULL` for a `NULL` context or `idx >= ctx->count`, else
the entry at `physIdx`. -/
def log_get_entry (ctx : Option LogCtx) (idx : Nat) : Option LogEntry :=
  match ctx with
  | none => none
  | some c =>
    if c.count ≤ idx then none
    else c.buffer[physIdx c idx]?

/-- `log_get_buffer`: the raw buffer plus the count written through the
out-parameter.  `countArgPresent` says whether the `uint16_t *count` argument
is non-`NULL`; the second component is the value written through it
(`none` when nothing is written). -/
def log_get_buffer (ctx : Option LogCtx) (countArgPresent : Bool) :
    Option (List LogEntry) × Option Nat :=
  match ctx with
  | none => (none, if countArgPresent then some 0 else none)
  | some c => (some c.buffer, if countArgPresent then some c.count else none)

/-- One execution of the `LOG_ONCE` macro body at a call site whose static
`_logged` flag currently holds `logged`: if the flag is 0, call `log_event`
and set the flag to 1.  The `Bool` result records whether `log_event` was
invoked. -/
def LOG_ONCE_step (logged : Nat) (ctx : Option LogCtx) (p : AppendInput) :
    (Nat × Option LogCtx) × Bool :=
  if logged = 0 then ((1, log_event ctx p.level (some p.msg) p.ts), true)
  else ((logged, ctx), false)

/-- Repeated invocations of one `LOG_ONCE` call site, threading the static
flag and the context; the `Nat` result counts how many invocations actually
called `log_event`. -/
def LOG_ONCE_run (logged : Nat) (ctx : Option LogCtx) : List AppendInput →
    (Nat × Option LogCtx) × Nat
  | [] => ((logged, ctx), 0)
  | p :: l =>
    let r := LOG_ONCE_step logged ctx p
    let rest := LOG_ONCE_run r.1.1 r.1.2 l
    (rest.1, (if r.2 then 1 else 0) + rest.2)

/-- A sequence of `log_event` calls on a non-`NULL` context. -/
def appendList (c : LogCtx) (l : List AppendInput) : LogCtx :=
  l.foldl (fun c p => log_event1 c p.level (some p.msg) p.ts) c

/-- A sequence of `log_event` calls. -/
def appendAll (ctx : Option LogCtx) (l : List AppendInput) : Option LogCtx :=
  l.foldl (fun c p => log_event c p.level (some p.msg) p.ts) ctx

/-- The context state `log_init` produces. -/
def freshCtx (tsf : Option Nat) : LogCtx :=
  { buffer := List.replicate LOG_ENTRIES zeroEntry
    head := 0
    count := 0
    timestamp_fn := tsf }

/-- Structural well-formedness of a context: the fixed array has its declared
size and the cursor/count fields are in their documented ranges. -/
def WF (c : LogCtx) : Prop :=
  c.buffer.length = LOG_ENTRIES ∧ c.head < LOG_ENTRIES ∧ c.count ≤ LOG_ENTRIES

/-- The retained entries in logical age order (index 0 = oldest surviving),
reading slot `(head + LOG_ENTRIES - count + k) % LOG_ENTRIES` for each
`k < count`. -/
def logToList (c : LogCtx) : List LogEntry :=
  (List.range c.count).map fun k =>
    (c.buffer[(c.head + LOG_ENTRIES - c.count + k) % LOG_ENTRIES]?).getD zeroEntry

/-- The abstract effect of one successful append on the retained-entry list:
append, discarding the oldest entry once the capacity is reached. -/
def absAppend (m : List LogEntry) (e : LogEntry) : List LogEntry :=
  if m.length < LOG_ENTRIES then m ++ [e] else m.drop 1 ++ [e]

/-- Context states reachable through the API: some `log_init` (whose result
does not depend on the prior state) followed by any number of `log_event`
calls.  The query operations `log_get_count`, `log_get_entry` and
`log_get_buffer` do not mutate the context. -/
inductive Reachable : LogCtx → Prop where
  | init : ∀ tsf, Reachable (freshCtx tsf)
  | event : ∀ c level fmt ts, Reachable c → Reachable (log_event1 c level fmt ts)

/-! ### Basic lemmas about the operations -/

theorem log_event1_guard (c : LogCtx) (level : LogLevel) (fmt : Option (List Char)) (ts : Nat)
    (h : c.timestamp_fn = none ∨ fmt = none) :
    log_event1 c level fmt ts = c := by
  simp [log_event1, h]

theorem log_event1_some (c : LogCtx) (level : LogLevel) (m : List Char) (ts : Nat)
    (hts : c.timestamp_fn ≠ none) :
    log_event1 c level (some m) ts =
      { buffer := c.buffer.set c.head (mkEntry { level := level, msg := m, ts := ts })
        head := if LOG_ENTRIES ≤ (c.head + 1) % 2 ^ 16 then 0 else (c.head + 1) % 2 ^ 16
        count := if c.count < LOG_ENTRIES then c.count + 1 else c.count
        timestamp_fn := c.timestamp_fn } := by
  simp [log_event1, hts]

theorem log_event1_timestamp_fn (c : LogCtx) (level : LogLevel) (fmt : Option (List Char))
    (ts : Nat) :
    (log_event1 c level fmt ts).timestamp_fn = c.timestamp_fn := by
  unfold log_event1
  split <;> rfl

theorem log_event1_bounds (c : LogCtx) (level : LogLevel) (fmt : Option (List Char)) (ts : Nat)
    (h1 : c.head < LOG_ENTRIES) (h2 : c.count ≤ LOG_ENTRIES) :
    (log_event1 c level fmt ts).head < LOG_ENTRIES ∧
      (log_event1 c level fmt ts).count ≤ LOG_ENTRIES := by
  unfold log_event1
  split
  · exact ⟨h1, h2⟩
  · constructor
    · simp only [LOG_ENTRIES] at *
      split <;> omega
    · simp only [LOG_ENTRIES] at *
      split <;> omega

theorem log_event1_count_mono (c : LogCtx) (level : LogLevel) (fmt : Option (List Char))
    (ts : Nat) :
    c.count ≤ (log_event1 c level fmt ts).count := by
  unfold log_event1
  split
  · exact Nat.le_refl _
  · simp only
    split <;> omega

theorem WF_log_event1 (c : LogCtx) (level : LogLevel) (fmt : Option (List Char)) (ts : Nat)
    (hwf : WF c) :
    WF (log_event1 c level fmt ts) := by
  obtain ⟨hlen, hhead, hcount⟩ := hwf
  refine ⟨?_, log_event1_bounds c level fmt ts hhead hcount⟩
  unfold log_event1
  split
  · exact hlen
  · simpa using hlen

theorem WF_freshCtx (tsf : Option Nat) : WF (freshCtx tsf) := by
  refine ⟨by simp [freshCtx], ?_, ?_⟩ <;> simp [freshCtx, LOG_ENTRIES]

theorem logToList_length (c : LogCtx) : (logToList c).length = c.count := by
  simp [logToList]

theorem logToList_freshCtx (tsf : Option Nat) : logToList (freshCtx tsf) = [] := by
  simp [logToList, freshCtx]

theorem log_init_some (c0 : LogCtx) (tsf : Option Nat) :
    log_init (some c0) tsf = some (freshCtx tsf) := rfl

theorem appendAll_some (c : LogCtx) (l : List AppendInput) :
    appendAll (some c) l = some (appendList c l) := by
  induction l generalizing c with
  | nil => rfl
  | cons p l ih =>
    simpa [appendAll, appendList, log_event] using ih (log_event1 c p.level (some p.msg) p.ts)

/-! ### The ring-buffer abstraction: one successful append transforms the
retained-entry list by `absAppend` -/

theorem logToList_log_event1 (c : LogCtx) (level : LogLevel) (m : List Char) (ts : Nat)
    (hwf : WF c) (hts : c.timestamp_fn ≠ none) :
    logToList (log_event1 c level (some m) ts) =
      absAppend (logToList c) (mkEntry { level := level, msg := m, ts := ts }) := by
  obtain ⟨hlen, hhead, hcount⟩ := hwf
  rw [log_event1_some c level m ts hts]
  have h16 : (c.head + 1) % 2 ^ 16 = c.head + 1 := by
    apply Nat.mod_eq_of_lt
    simp only [LOG_ENTRIES] at hhead
    omega
  unfold absAppend
  rw [logToList_length]
  simp only [logToList, h16, LOG_ENTRIES] at *
  by_cases hc : c.count < 50
  · rw [if_pos hc]
    simp only [if_pos hc]
    rw [List.range_succ, List.map_append, List.map_cons, List.map_nil]
    congr 1
    · apply List.map_congr_left
      intro k hk
      rw [List.mem_range] at hk
      have hne : c.head ≠ (c.head + 50 - c.count + k) % 50 := by omega
      rw [show ((if 50 ≤ c.head + 1 then 0 else c.head + 1) + 50 - (c.count + 1) + k) % 50
            = (c.head + 50 - c.count + k) % 50 by split <;> omega,
        List.getElem?_set_ne hne]
    · rw [show ((if 50 ≤ c.head + 1 then 0 else c.head + 1) + 50 - (c.count + 1) + c.count) % 50
            = c.head by split <;> omega,
        List.getElem?_set_self (by omega : c.head < c.buffer.length)]
      rfl
  · rw [if_neg hc]
    simp only [if_neg hc]
    have hc50 : c.count = 50 := by omega
    simp only [hc50]
    have hr49 : List.range 50 = List.range 49 ++ [49] := List.range_succ 49
    have hr0 : List.range 50 = 0 :: List.map Nat.succ (List.range 49) :=
      List.range_succ_eq_map 49
    conv_rhs => rw [hr0]
    rw [List.map_cons, List.drop_succ_cons, List.drop_zero, List.map_map]
    conv_lhs => rw [hr49]
    rw [List.map_append, List.map_cons, List.map_nil]
    congr 1
    · apply List.map_congr_left
      intro k hk
      rw [List.mem_range] at hk
      simp only [Function.comp_apply, Nat.succ_eq_add_one]
      have hne : c.head ≠ (c.head + 50 - 50 + (k + 1)) % 50 := by omega
      rw [show ((if 50 ≤ c.head + 1 then 0 else c.head + 1) + 50 - 50 + k) % 50
            = (c.head + 50 - 50 + (k + 1)) % 50 by split <;> omega,
        List.getElem?_set_ne hne]
    · rw [show ((if 50 ≤ c.head + 1 then 0 else c.head + 1) + 50 - 50 + 49) % 50
            = c.head by split <;> omega,
        List.getElem?_set_self (by omega : c.head < c.buffer.length)]
      rfl

theorem foldl_absAppend (es : List LogEntry) :
    ∀ m : List LogEntry, m.length ≤ LOG_ENTRIES →
      es.foldl absAppend m = (m ++ es).drop (m.length + es.length - LOG_ENTRIES) := by
  induction es with
  | nil =>
    intro m hm
    simp only [List.foldl_nil, List.append_nil, List.length_nil, Nat.add_zero]
    simp only [LOG_ENTRIES] at hm
    rw [show m.length - LOG_ENTRIES = 0 by simp only [LOG_ENTRIES]; omega, List.drop_zero]
  | cons e es ih =>
    intro m hm
    rw [List.foldl_cons]
    simp only [LOG_ENTRIES] at hm
    by_cases hlt : m.length < 50
    · have habs : absAppend m e = m ++ [e] := by
        unfold absAppend
        rw [if_pos (by simp only [LOG_ENTRIES]; omega)]
      rw [ih (absAppend m e) (by
        rw [habs]
        simp only [List.length_append, List.length_cons, List.length_nil, LOG_ENTRIES]
        omega), habs]
      simp only [List.append_assoc, List.singleton_append, List.length_append,
        List.length_cons, List.length_nil, LOG_ENTRIES]
      congr 1
      omega
    · have hm50 : m.length = 50 := by omega
      have habs : absAppend m e = m.drop 1 ++ [e] := by
        unfold absAppend
        rw [if_neg (by simp only [LOG_ENTRIES]; omega)]
      have hlabs : (absAppend m e).length = 50 := by
        rw [habs]
        simp only [List.length_append, List.length_drop, List.length_cons, List.length_nil]
        omega
      rw [ih (absAppend m e) (by simp only [hlabs, LOG_ENTRIES]; omega), hlabs, habs]
      simp only [List.append_assoc, List.singleton_append, List.length_cons, LOG_ENTRIES]
      rw [show 50 + es.length - 50 = es.length by omega,
        show m.length + (es.length + 1) - 50 = 1 + es.length by omega]
      conv_rhs => rw [← List.drop_drop, List.drop_append_eq_append_drop,
        show (1 : Nat) - m.length = 0 by omega, List.drop_zero]

theorem appendList_abs (l : List AppendInput) :
    ∀ c : LogCtx, WF c → c.timestamp_fn ≠ none →
      WF (appendList c l) ∧ (appendList c l).timestamp_fn = c.timestamp_fn ∧
        logToList (appendList c l) = (l.map mkEntry).foldl absAppend (logToList c) := by
  induction l with
  | nil => exact fun c hwf hts => ⟨hwf, rfl, rfl⟩
  | cons p l ih =>
    intro c hwf hts
    have hstep : appendList c (p :: l) = appendList (log_event1 c p.level (some p.msg) p.ts) l :=
      rfl
    have hwf' := WF_log_event1 c p.level (some p.msg) p.ts hwf
    have hts' : (log_event1 c p.level (some p.msg) p.ts).timestamp_fn ≠ none := by
      rw [log_event1_timestamp_fn]; exact hts
    obtain ⟨h1, h2, h3⟩ := ih (log_event1 c p.level (some p.msg) p.ts) hwf' hts'
    refine ⟨hstep ▸ h1, ?_, ?_⟩
    · rw [hstep, h2, log_event1_timestamp_fn]
    · rw [hstep, h3, logToList_log_event1 c p.level p.msg p.ts hwf hts]
      rfl

/-- Full characterization of a run of successful appends on a freshly
initialized log: the retained entries are the last `min N LOG_ENTRIES` of the
appended entries, in append order. -/
theorem appendList_fresh (r : Nat) (l : List AppendInput) :
    WF (appendList (freshCtx (some r)) l) ∧
      (appendList (freshCtx (some r)) l).timestamp_fn = some r ∧
      logToList (appendList (freshCtx (some r)) l) =
        (l.map mkEntry).drop (l.length - LOG_ENTRIES) := by
  obtain ⟨h1, h2, h3⟩ := appendList_abs l (freshCtx (some r)) (WF_freshCtx _) (by simp [freshCtx])
  refine ⟨h1, h2, ?_⟩
  rw [h3, logToList_freshCtx, foldl_absAppend _ [] (by simp [LOG_ENTRIES])]
  simp

/-! ### Retrieval: `log_get_entry` reads the logical age-ordered list -/

/-- On a well-formed context the 32-bit wrapping index computation of
`log_get_entry` agrees with the mathematical formula
`(head + LOG_ENTRIES - count + idx) % LOG_ENTRIES`. -/
theorem physIdx_eq (c : LogCtx) (idx : Nat) (hwf : WF c) (hidx : idx < c.count) :
    physIdx c idx = (c.head + LOG_ENTRIES - c.count + idx) % LOG_ENTRIES := by
  obtain ⟨hlen, hhead, hcount⟩ := hwf
  simp only [physIdx, LOG_ENTRIES] at *
  omega

theorem log_get_entry_eq_logToList (c : LogCtx) (hwf : WF c) (k : Nat) (hk : k < c.count) :
    log_get_entry (some c) k = (logToList c)[k]? := by
  have hlen := hwf.1
  have hb : (c.head + LOG_ENTRIES - c.count + k) % LOG_ENTRIES < c.buffer.length := by
    rw [hlen]
    exact Nat.mod_lt _ (by simp [LOG_ENTRIES])
  simp only [log_get_entry, if_neg (by omega : ¬c.count ≤ k), physIdx_eq c k hwf hk,
    logToList, List.getElem?_map, List.getElem?_range hk, Option.map_some',
    List.getElem?_eq_getElem hb]
  rfl

/-- A default append input, used only as the default of `List.getD`. -/
def dfltInput : AppendInput := { level := .INFO, msg := [], ts := 0 }

/-! ### The C1 / C2 claims: append sequences on a freshly initialized log -/

/-- C2: for every sequence of `N ≤ LOG_ENTRIES` successful appends on a
freshly initialized log (non-`NULL` context, time source, and format),
`log_get_count` returns `N`, and for every `i < N` the `i`-th oldest entry is
the `i`-th appended one: its `timestamp` is the value the time source returned
at that append (a `uint32_t`), its `level` is the level passed to that append,
and its `msg` is the rendered message of that append (which fits the message
field). -/
theorem appends_within_capacity (c0 : LogCtx) (r : Nat) (l : List AppendInput)
    (hN : l.length ≤ LOG_ENTRIES)
    (hts : ∀ p ∈ l, p.ts < 2 ^ 32) (hmsg : ∀ p ∈ l, p.msg.length < LOG_MSG_LEN) :
    log_get_count (appendAll (log_init (some c0) (some r)) l) = l.length ∧
    ∀ i : Nat, i < l.length →
      log_get_entry (appendAll (log_init (some c0) (some r)) l) i =
        some { timestamp := (l.getD i dfltInput).ts
               level := (l.getD i dfltInput).level.toCode
               msg := (l.getD i dfltInput).msg } := by
  rw [log_init_some, appendAll_some]
  obtain ⟨hwf, htsf, habs⟩ := appendList_fresh r l
  have hcnt : (appendList (freshCtx (some r)) l).count = l.length := by
    have hll := logToList_length (appendList (freshCtx (some r)) l)
    rw [habs] at hll
    simp only [List.length_drop, List.length_map] at hll
    simp only [LOG_ENTRIES] at hll hN
    omega
  refine ⟨hcnt, ?_⟩
  intro i hi
  rw [log_get_entry_eq_logToList _ hwf i (by rw [hcnt]; exact hi), habs,
    show l.length - LOG_ENTRIES = 0 by simp only [LOG_ENTRIES] at hN ⊢; omega,
    List.drop_zero, List.getElem?_map, List.getElem?_eq_getElem hi, Option.map_some']
  have hmem : l[i] ∈ l := List.getElem_mem hi
  have h1 : l[i].ts % 2 ^ 32 = l[i].ts := Nat.mod_eq_of_lt (hts _ hmem)
  have h2 : (l[i].msg).take (LOG_MSG_LEN - 1) = l[i].msg :=
    List.take_of_length_le (by
      have := hmsg _ hmem
      simp only [LOG_MSG_LEN] at *
      omega)
  rw [List.getD_eq_getElem l dfltInput hi]
  simp only [mkEntry, h1, h2]

theorem appends_within_capacity_witness :
    ([({ level := .WARN, msg := ['B', 'o', 'o', 't'], ts := 3 } : AppendInput)].length
        ≤ LOG_ENTRIES ∧
      (∀ p ∈ [({ level := .WARN, msg := ['B', 'o', 'o', 't'], ts := 3 } : AppendInput)],
        p.ts < 2 ^ 32) ∧
      (∀ p ∈ [({ level := .WARN, msg := ['B', 'o', 'o', 't'], ts := 3 } : AppendInput)],
        p.msg.length < LOG_MSG_LEN)) ∧
    (log_get_count (appendAll (log_init (some (freshCtx none)) (some 7))
        [{ level := .WARN, msg := ['B', 'o', 'o', 't'], ts := 3 }]) =
      [({ level := .WARN, msg := ['B', 'o', 'o', 't'], ts := 3 } : AppendInput)].length ∧
    ∀ i : Nat, i < [({ level := .WARN, msg := ['B', 'o', 'o', 't'], ts := 3 } : AppendInput)].length →
      log_get_entry (appendAll (log_init (some (freshCtx none)) (some 7))
          [{ level := .WARN, msg := ['B', 'o', 'o', 't'], ts := 3 }]) i =
        some { timestamp :=
                ([({ level := .WARN, msg := ['B', 'o', 'o', 't'], ts := 3 } : AppendInput)].getD
                  i dfltInput).ts
               level :=
                ([({ level := .WARN, msg := ['B', 'o', 'o', 't'], ts := 3 } : AppendInput)].getD
                  i dfltInput).level.toCode
               msg :=
                ([({ level := .WARN, msg := ['B', 'o', 'o', 't'], ts := 3 } : AppendInput)].getD
                  i dfltInput).msg }) :=
  ⟨⟨by decide, by decide, by decide⟩,
    appends_within_capacity (freshCtx none) 7
      [{ level := .WARN, msg := ['B', 'o', 'o', 't'], ts := 3 }]
      (by decide) (by decide) (by decide)⟩

/-- The list of inputs used to witness the beyond-capacity claim:
`LOG_ENTRIES + 1` appends. -/
def wInputs1 : List AppendInput := List.replicate 51 dfltInput

/-- C1: for every sequence of `N > LOG_ENTRIES` successful appends on a
freshly initialized log, `log_get_count` returns `LOG_ENTRIES`,
`log_get_entry 0` returns the entry written by append number
`N - LOG_ENTRIES` (0-indexed), and `log_get_entry (LOG_ENTRIES - 1)` returns
the entry written by append number `N - 1`: the oldest entries have been
silently overwritten. -/
theorem appends_beyond_capacity (c0 : LogCtx) (r : Nat) (l : List AppendInput)
    (hN : LOG_ENTRIES < l.length) :
    log_get_count (appendAll (log_init (some c0) (some r)) l) = LOG_ENTRIES ∧
    log_get_entry (appendAll (log_init (some c0) (some r)) l) 0 =
      some (mkEntry (l.getD (l.length - LOG_ENTRIES) dfltInput)) ∧
    log_get_entry (appendAll (log_init (some c0) (some r)) l) (LOG_ENTRIES - 1) =
      some (mkEntry (l.getD (l.length - 1) dfltInput)) := by
  rw [log_init_some, appendAll_some]
  obtain ⟨hwf, htsf, habs⟩ := appendList_fresh r l
  have hcnt : (appendList (freshCtx (some r)) l).count = LOG_ENTRIES := by
    have hll := logToList_length (appendList (freshCtx (some r)) l)
    rw [habs] at hll
    simp only [List.length_drop, List.length_map] at hll
    simp only [LOG_ENTRIES] at hll hN ⊢
    omega
  have key : ∀ k : Nat, k < LOG_ENTRIES →
      log_get_entry (some (appendList (freshCtx (some r)) l)) k =
        some (mkEntry (l.getD (l.length - LOG_ENTRIES + k) dfltInput)) := by
    intro k hk
    have hik : l.length - LOG_ENTRIES + k < l.length := by
      simp only [LOG_ENTRIES] at *
      omega
    rw [log_get_entry_eq_logToList _ hwf k (by rw [hcnt]; exact hk), habs,
      List.getElem?_drop, List.getElem?_map, List.getElem?_eq_getElem hik, Option.map_some',
      List.getD_eq_getElem l dfltInput hik]
  refine ⟨hcnt, ?_, ?_⟩
  · have h0 := key 0 (by simp [LOG_ENTRIES])
    rw [Nat.add_zero] at h0
    exact h0
  · have h49 := key (LOG_ENTRIES - 1) (by simp [LOG_ENTRIES])
    rw [show l.length - LOG_ENTRIES + (LOG_ENTRIES - 1) = l.length - 1 by
      simp only [LOG_ENTRIES] at *
      omega] at h49
    exact h49

theorem appends_beyond_capacity_witness :
    LOG_ENTRIES < wInputs1.length ∧
    (log_get_count (appendAll (log_init (some (freshCtx none)) (some 0)) wInputs1) =
        LOG_ENTRIES ∧
      log_get_entry (appendAll (log_init (some (freshCtx none)) (some 0)) wInputs1) 0 =
        some (mkEntry (wInputs1.getD (wInputs1.length - LOG_ENTRIES) dfltInput)) ∧
      log_get_entry (appendAll (log_init (some (freshCtx none)) (some 0)) wInputs1)
          (LOG_ENTRIES - 1) =
        some (mkEntry (wInputs1.getD (wInputs1.length - 1) dfltInput))) :=
  ⟨by decide, appends_beyond_capacity (freshCtx none) 0 wInputs1 (by decide)⟩

/-! ### The C3 claim: the logical-to-physical index mapping -/

/-- C3: `log_get_entry ctx idx` is absent exactly when the context is absent
or `idx ≥ count` (including `idx` far beyond capacity), and otherwise returns
the entry stored at physical slot
`(head + LOG_ENTRIES - count + idx) % LOG_ENTRIES`; on a well-formed context
this holds in both the non-wrapped (`count < LOG_ENTRIES`) and wrapped
(`count = LOG_ENTRIES`) states. -/
theorem get_entry_mapping (ctx : Option LogCtx) (idx : Nat)
    (hwf : ∀ c : LogCtx, ctx = some c → WF c) :
    (log_get_entry ctx idx = none ↔
      ctx = none ∨ ∃ c : LogCtx, ctx = some c ∧ c.count ≤ idx) ∧
    (∀ c : LogCtx, ctx = some c → idx < c.count →
      log_get_entry ctx idx =
        some ((c.buffer[(c.head + LOG_ENTRIES - c.count + idx) % LOG_ENTRIES]?).getD
          zeroEntry)) := by
  cases ctx with
  | none => simp [log_get_entry]
  | some c =>
    have hw := hwf c rfl
    have hb : (c.head + LOG_ENTRIES - c.count + idx) % LOG_ENTRIES < c.buffer.length := by
      rw [hw.1]
      exact Nat.mod_lt _ (by simp [LOG_ENTRIES])
    constructor
    · constructor
      · intro h
        by_cases hle : c.count ≤ idx
        · exact Or.inr ⟨c, rfl, hle⟩
        · exfalso
          rw [log_get_entry, if_neg hle, physIdx_eq c idx hw (by omega),
            List.getElem?_eq_getElem hb] at h
          exact Option.noConfusion h
      · rintro (h | ⟨c', hc', hle⟩)
        · exact Option.noConfusion h
        · obtain rfl : c = c' := Option.some_inj.mp hc'
          rw [log_get_entry, if_pos hle]
    · intro c' hc' hidx
      obtain rfl : c = c' := Option.some_inj.mp hc'
      rw [log_get_entry, if_neg (by omega), physIdx_eq c idx hw hidx,
        List.getElem?_eq_getElem hb]
      rfl

theorem get_entry_mapping_witness :
    (∀ c : LogCtx, some (freshCtx none) = some c → WF c) ∧
    ((log_get_entry (some (freshCtx none)) 3 = none ↔
        some (freshCtx none) = none ∨
          ∃ c : LogCtx, some (freshCtx none) = some c ∧ c.count ≤ 3) ∧
      (∀ c : LogCtx, some (freshCtx none) = some c → 3 < c.count →
        log_get_entry (some (freshCtx none)) 3 =
          some ((c.buffer[(c.head + LOG_ENTRIES - c.count + 3) % LOG_ENTRIES]?).getD
            zeroEntry))) :=
  ⟨fun _c h => (Option.some_inj.mp h) ▸ WF_freshCtx none,
    get_entry_mapping (some (freshCtx none)) 3
      (fun _c h => (Option.some_inj.mp h) ▸ WF_freshCtx none)⟩

/-! ### The C5 / C8 / C4 / C9 claims (initialization, bulk access, no-op
guards, one-shot logging) -/

/-- C5: `log_init` on any non-`NULL` context resets `head` and `count` to 0,
clears every storage slot to the all-zero entry, and stores the given
time-source reference; the result does not depend on the prior state (the
prior context `c0` does not occur on the right-hand side, so repeated calls
fully reset the state with no leakage), and afterwards `log_get_entry`
returns `none` for every index. -/
theorem log_init_resets (c0 : LogCtx) (tsf : Option Nat) :
    log_init (some c0) tsf =
      some { buffer := List.replicate LOG_ENTRIES zeroEntry
             head := 0
             count := 0
             timestamp_fn := tsf } ∧
    ∀ idx : Nat, log_get_entry (log_init (some c0) tsf) idx = none := by
  constructor
  · rfl
  · intro idx
    simp [log_init, log_get_entry]

/-- C8: `log_get_buffer` returns the raw physical storage array together with
the current count: for a `NULL` context it returns an absent view and writes 0
through a present count out-parameter instead of failing, and on a freshly
initialized log it reports count 0. -/
theorem log_get_buffer_spec :
    (∀ cp : Bool, log_get_buffer none cp = (none, if cp then some 0 else none)) ∧
    (∀ (c : LogCtx) (cp : Bool),
      log_get_buffer (some c) cp = (some c.buffer, if cp then some c.count else none)) ∧
    (∀ (c0 : LogCtx) (tsf : Option Nat),
      log_get_buffer (log_init (some c0) tsf) true =
        (some (List.replicate LOG_ENTRIES zeroEntry), some 0)) := by
  refine ⟨fun cp => rfl, fun c cp => rfl, fun c0 tsf => rfl⟩

/-- C4: when the context is `NULL`, or the time source or the format string is
absent, `log_event` performs no mutation at all — the resulting context equals
the prior one in every field — and in particular `log_get_count` is unchanged;
no error is signaled. -/
theorem log_event_noop :
    (∀ (level : LogLevel) (fmt : Option (List Char)) (ts : Nat),
      log_event none level fmt ts = none) ∧
    (∀ (c : LogCtx) (level : LogLevel) (fmt : Option (List Char)) (ts : Nat),
      c.timestamp_fn = none ∨ fmt = none →
        log_event (some c) level fmt ts = some c ∧
        log_get_count (log_event (some c) level fmt ts) = log_get_count (some c)) := by
  refine ⟨fun _ _ _ => rfl, fun c level fmt ts h => ?_⟩
  have : log_event (some c) level fmt ts = some c := by
    simp [log_event, log_event1_guard c level fmt ts h]
  exact ⟨this, by rw [this]⟩

theorem log_event_noop_witness :
    ((freshCtx none).timestamp_fn = none ∨ (some ['a']) = none) ∧
    (log_event (some (freshCtx none)) .INFO (some ['a']) 7 = some (freshCtx none) ∧
      log_get_count (log_event (some (freshCtx none)) .INFO (some ['a']) 7) =
        log_get_count (some (freshCtx none))) :=
  ⟨Or.inl rfl, log_event_noop.2 (freshCtx none) .INFO (some ['a']) 7 (Or.inl rfl)⟩

theorem LOG_ONCE_run_flagged (l : List AppendInput) (ctx : Option LogCtx) :
    (LOG_ONCE_run 1 ctx l).2 = 0 := by
  induction l generalizing ctx with
  | nil => rfl
  | cons p l ih => simpa [LOG_ONCE_run, LOG_ONCE_step] using ih ctx

/-- C9: for one `LOG_ONCE` call site with its static `_logged` flag starting
at 0, any number of invocations performs exactly `min n 1` calls to
`log_event`: the first invocation appends (calling `log_event` and setting the
flag to 1), and once the flag is 1 — as it is after the first invocation, and
until it is externally reset — no further invocation appends. -/
theorem LOG_ONCE_at_most_once (ctx : Option LogCtx) (l : List AppendInput) :
    (LOG_ONCE_run 0 ctx l).2 = min l.length 1 ∧
    (∀ p : AppendInput,
      LOG_ONCE_step 0 ctx p = ((1, log_event ctx p.level (some p.msg) p.ts), true)) ∧
    (∀ (l' : List AppendInput) (ctx' : Option LogCtx), (LOG_ONCE_run 1 ctx' l').2 = 0) := by
  refine ⟨?_, fun p => rfl, fun l' ctx' => LOG_ONCE_run_flagged l' ctx'⟩
  cases l with
  | nil => rfl
  | cons p l =>
    simp [LOG_ONCE_run, LOG_ONCE_step, LOG_ONCE_run_flagged]

/-! ### The C6 claim: invariants over all reachable states -/

/-- C6: every context state reachable through the API keeps
`head < LOG_ENTRIES` and `count ≤ LOG_ENTRIES`; `log_event` never decreases
`count`, and `log_init` is the operation that resets `count` to 0 (the query
operations do not mutate the context at all). -/
theorem reachable_invariant :
    (∀ c : LogCtx, Reachable c → c.head < LOG_ENTRIES ∧ c.count ≤ LOG_ENTRIES) ∧
    (∀ (c : LogCtx) (level : LogLevel) (fmt : Option (List Char)) (ts : Nat),
      c.count ≤ (log_event1 c level fmt ts).count) ∧
    (∀ (c0 : LogCtx) (tsf : Option Nat), log_get_count (log_init (some c0) tsf) = 0) := by
  refine ⟨?_, log_event1_count_mono, fun c0 tsf => rfl⟩
  intro c h
  induction h with
  | init tsf => exact ⟨by simp [freshCtx, LOG_ENTRIES], by simp [freshCtx]⟩
  | event c level fmt ts hr ih => exact log_event1_bounds c level fmt ts ih.1 ih.2

theorem reachable_invariant_witness :
    Reachable (freshCtx none) ∧
      ((freshCtx none).head < LOG_ENTRIES ∧ (freshCtx none).count ≤ LOG_ENTRIES) :=
  ⟨Reachable.init none, reachable_invariant.1 (freshCtx none) (Reachable.init none)⟩

/-! ### The C7 claim: message truncation -/

/-- C7: a successful append stores at `head` an entry whose message is a
terminated prefix of the rendered text, strictly shorter than the
`LOG_MSG_LEN`-byte field (leaving room for the terminator); a rendered text
that fits (length `< LOG_MSG_LEN`, i.e. at most `LOG_MSG_LEN - 1` characters
plus the terminator) is stored exactly. -/
theorem message_truncation (c : LogCtx) (level : LogLevel) (m : List Char) (ts : Nat)
    (hts : c.timestamp_fn ≠ none) (hh : c.head < c.buffer.length) :
    ∃ e : LogEntry,
      (log_event1 c level (some m) ts).buffer[c.head]? = some e ∧
      e.msg.length < LOG_MSG_LEN ∧
      (∃ rest : List Char, e.msg ++ rest = m) ∧
      (m.length < LOG_MSG_LEN → e.msg = m) := by
  rw [log_event1_some c level m ts hts]
  refine ⟨mkEntry { level := level, msg := m, ts := ts },
    List.getElem?_set_self hh, ?_, ?_, ?_⟩
  · have h := List.length_take_le (LOG_MSG_LEN - 1) m
    simp only [mkEntry, LOG_MSG_LEN] at h ⊢
    omega
  · exact ⟨m.drop (LOG_MSG_LEN - 1), List.take_append_drop _ m⟩
  · intro hfit
    simp only [mkEntry]
    exact List.take_of_length_le (by simp only [LOG_MSG_LEN] at hfit ⊢; omega)

theorem message_truncation_witness :
    ((freshCtx (some 1)).timestamp_fn ≠ none ∧
      (freshCtx (some 1)).head < (freshCtx (some 1)).buffer.length) ∧
    ∃ e : LogEntry,
      (log_event1 (freshCtx (some 1)) .FAULT (some (List.replicate 60 'x')) 2).buffer[
        (freshCtx (some 1)).head]? = some e ∧
      e.msg.length < LOG_MSG_LEN ∧
      (∃ rest : List Char, e.msg ++ rest = List.replicate 60 'x') ∧
      ((List.replicate 60 'x').length < LOG_MSG_LEN → e.msg = List.replicate 60 'x') :=
  ⟨⟨by decide, by decide⟩,
    message_truncation (freshCtx (some 1)) .FAULT (List.replicate 60 'x') 2
      (by decide) (by decide)⟩

/-! ### The C10 claim: the frame of a successful append -/

/-- C10: a successful `log_event` call changes at most the storage slot at the
pre-call `head` index (and the `head` and `count` fields): every other storage
slot and the stored time-source reference are unchanged, so all previously
retained entries other than the overwritten one keep their exact contents. -/
theorem append_frame (c : LogCtx) (level : LogLevel) (m : List Char) (ts : Nat) (c' : LogCtx)
    (hts : c.timestamp_fn ≠ none)
    (h : log_event (some c) level (some m) ts = some c') :
    c'.timestamp_fn = c.timestamp_fn ∧
    ∀ j : Nat, j ≠ c.head → c'.buffer[j]? = c.buffer[j]? := by
  have hc' : c' = log_event1 c level (some m) ts := by
    have := Option.some_inj.mp h
    exact this.symm
  subst hc'
  refine ⟨log_event1_timestamp_fn c level (some m) ts, ?_⟩
  intro j hj
  rw [log_event1_some c level m ts hts]
  exact List.getElem?_set_ne (Ne.symm hj)

theorem append_frame_witness :
    ((freshCtx (some 0)).timestamp_fn ≠ none ∧
      log_event (some (freshCtx (some 0))) .INFO (some ['a']) 5 =
        some (log_event1 (freshCtx (some 0)) .INFO (some ['a']) 5)) ∧
    ((log_event1 (freshCtx (some 0)) .INFO (some ['a']) 5).timestamp_fn =
        (freshCtx (some 0)).timestamp_fn ∧
      ∀ j : Nat, j ≠ (freshCtx (some 0)).head →
        (log_event1 (freshCtx (some 0)) .INFO (some ['a']) 5).buffer[j]? =
          (freshCtx (some 0)).buffer[j]?) :=
  ⟨⟨by decide, rfl⟩,
    append_frame (freshCtx (some 0)) .INFO ['a'] 5
      (log_event1 (freshCtx (some 0)) .INFO (some ['a']) 5) (by decide) rfl⟩

end EmbeddedLog
